import Mathlib

/-!
Verification of the retrieval/indexing core of a small RAG service:
chunking (`chunk_text` in pipeline.py), spreadsheet row flattening
(`read_xlsx`), the batch-embedding build loop (`main` in pipeline.py),
and the retriever (`Retriever.__init__` / `Retriever.query` in
retriever.py).  Python character strings are modelled as `List Char`,
embedding vectors as `List Int`, metadata dictionaries as association
lists `List (String × String)`.
-/

/-- Python index normalization for a slice bound: a negative index counts
from the end (clamped at 0), a nonnegative one is clamped at the length. -/
def pyIndex (n : Nat) (i : Int) : Nat :=
  if i < 0 then ((n : Int) + i).toNat else min i.toNat n

/-- Python slice `l[s:e]` (step 1). -/
def pySlice {α : Type} (l : List α) (s e : Int) : List α :=
  (l.take (pyIndex l.length e)).drop (pyIndex l.length s)

/-- The loop of `chunk_text` (pipeline.py lines 21-26), fuel-indexed so
that the non-terminating parameter settings are observable: `none` means
the loop was still running when the fuel ran out.  `start` is an `Int`
because `start += chunk_size - overlap` can move it below zero in Python
when `overlap > chunk_size`. -/
def chunkTextAux (text : List Char) (size overlap : Nat) :
    Nat → Int → Option (List (List Char))
  | 0, start => if start < (text.length : Int) then none else some []
  | fuel + 1, start =>
      if start < (text.length : Int) then
        match chunkTextAux text size overlap fuel
            (start + ((size : Int) - (overlap : Int))) with
        | none => none
        | some rest =>
            some (pySlice text start
              (min (start + (size : Int)) (text.length : Int)) :: rest)
      else some []

/-- `chunk_text(text, chunk_size, overlap)` run for `fuel` loop iterations,
starting (as in the source) at `start = 0`. -/
def chunk_text (text : List Char) (size overlap : Nat) (fuel : Nat) :
    Option (List (List Char)) :=
  chunkTextAux text size overlap fuel 0

/-- The closed form of the chunks produced for valid parameters: the
windows `text[start : start+size]` for `start = 0, s, 2s, ...` with
`s = size - overlap`, stopping once `start ≥ len text`. -/
def chunkWindows (text : List Char) (size overlap : Nat) : List (List Char) :=
  let s := size - overlap
  (List.range ((text.length + s - 1) / s)).map
    (fun j => (text.drop (j * s)).take size)

/-- Like `chunkWindows` but starting at an arbitrary offset; used to state
the loop invariant of `chunkTextAux`. -/
def windowsFrom (text : List Char) (size s start : Nat) : List (List Char) :=
  (List.range ((text.length - start + s - 1) / s)).map
    (fun j => (text.drop (start + j * s)).take size)

lemma pyIndex_natCast (n k : Nat) : pyIndex n (k : Int) = min k n := by
  simp [pyIndex]

lemma pySlice_window (text : List Char) (k size : Nat) (hk : k ≤ text.length) :
    pySlice text (k : Int) (min ((k : Int) + (size : Int)) (text.length : Int)) =
      (text.drop k).take size := by
  have hcast : min ((k : Int) + (size : Int)) (text.length : Int)
      = ((min (k + size) text.length : Nat) : Int) := by
    push_cast
    rfl
  rw [hcast]
  unfold pySlice
  rw [pyIndex_natCast, pyIndex_natCast]
  have h1 : min k text.length = k := Nat.min_eq_left hk
  have h2 : min (min (k + size) text.length) text.length
      = min (k + size) text.length := Nat.min_eq_left (Nat.min_le_right _ _)
  rw [h1, h2, List.drop_take]
  rw [List.take_eq_take]
  rw [List.length_drop]
  omega

lemma ceilDiv_step (s m : Nat) (hs : 1 ≤ s) (hm : 1 ≤ m) :
    (m + s - 1) / s = (m - s + s - 1) / s + 1 := by
  rcases le_or_lt m s with hle | hlt
  · have h1 : m + s - 1 = (m - 1) + s := by omega
    have h2 : m - s + s - 1 = s - 1 := by omega
    rw [h1, h2, Nat.add_div_right _ hs]
    have h3 : (m - 1) / s = 0 := Nat.div_eq_of_lt (by omega)
    have h4 : (s - 1) / s = 0 := Nat.div_eq_of_lt (by omega)
    omega
  · have h1 : m + s - 1 = ((m - s) + s - 1) + s := by omega
    rw [h1, Nat.add_div_right _ hs]

lemma windowsFrom_cons (text : List Char) (size s start : Nat) (hs : 1 ≤ s)
    (hlt : start < text.length) :
    windowsFrom text size s start =
      ((text.drop start).take size) :: windowsFrom text size s (start + s) := by
  unfold windowsFrom
  have hcount : (text.length - start + s - 1) / s
      = (text.length - (start + s) + s - 1) / s + 1 := by
    have h := ceilDiv_step s (text.length - start) hs (by omega)
    have heq : text.length - start - s = text.length - (start + s) := by omega
    rw [heq] at h
    exact h
  rw [hcount, List.range_succ_eq_map, List.map_cons]
  congr 1
  · simp
  · rw [List.map_map]
    apply List.map_congr_left
    intro j _
    have harg : start + Nat.succ j * s = start + s + j * s := by
      rw [Nat.succ_mul]
      omega
    simp only [Function.comp_apply, harg]

lemma windowsFrom_done (text : List Char) (size s start : Nat) (hs : 1 ≤ s)
    (hge : text.length ≤ start) :
    windowsFrom text size s start = [] := by
  unfold windowsFrom
  have h0 : text.length - start = 0 := by omega
  rw [h0]
  have : (0 + s - 1) / s = 0 := Nat.div_eq_of_lt (by omega)
  rw [this]
  rfl

lemma chunkTextAux_valid (text : List Char) (size overlap : Nat) (h : overlap < size) :
    ∀ (fuel : Nat) (start : Nat),
      text.length ≤ start + fuel * (size - overlap) →
      chunkTextAux text size overlap fuel (start : Int) =
        some (windowsFrom text size (size - overlap) start) := by
  have hs : 1 ≤ size - overlap := by omega
  intro fuel
  induction fuel with
  | zero =>
    intro start hle
    simp only [Nat.zero_mul, Nat.add_zero] at hle
    unfold chunkTextAux
    rw [if_neg (by exact_mod_cast Nat.not_lt.mpr hle)]
    rw [windowsFrom_done text size _ start hs hle]
  | succ fuel ih =>
    intro start hle
    rw [Nat.succ_mul] at hle
    by_cases hlt : start < text.length
    · unfold chunkTextAux
      rw [if_pos (by exact_mod_cast hlt)]
      have hcast : (start : Int) + ((size : Int) - (overlap : Int))
          = ((start + (size - overlap) : Nat) : Int) := by
        push_cast [Nat.cast_sub h.le]
        ring
      rw [hcast, ih (start + (size - overlap)) (by omega)]
      rw [windowsFrom_cons text size _ start hs hlt]
      rw [pySlice_window text start size hlt.le]
    · unfold chunkTextAux
      rw [if_neg (by exact_mod_cast hlt)]
      rw [windowsFrom_done text size _ start hs (by omega)]

lemma chunkTextAux_stuck (text : List Char) (size overlap : Nat)
    (h : size ≤ overlap) (ht : text ≠ []) :
    ∀ (fuel : Nat) (start : Int), start ≤ 0 →
      chunkTextAux text size overlap fuel start = none := by
  have hn : 0 < text.length := List.length_pos.mpr ht
  have hn' : (0 : Int) < (text.length : Int) := by exact_mod_cast hn
  intro fuel
  induction fuel with
  | zero =>
    intro start hstart
    unfold chunkTextAux
    rw [if_pos (lt_of_le_of_lt hstart hn')]
  | succ fuel ih =>
    intro start hstart
    unfold chunkTextAux
    rw [if_pos (lt_of_le_of_lt hstart hn')]
    have hstep : (size : Int) - (overlap : Int) ≤ 0 := by
      have : (size : Int) ≤ (overlap : Int) := by exact_mod_cast h
      omega
    rw [ih (start + ((size : Int) - (overlap : Int))) (by omega)]

lemma chunkWindows_eq_windowsFrom (text : List Char) (size overlap : Nat) :
    chunkWindows text size overlap = windowsFrom text size (size - overlap) 0 := by
  unfold chunkWindows windowsFrom
  simp

lemma chunkWindows_cover (text : List Char) (size overlap : Nat) (h : overlap < size)
    (i : Nat) (hi : i < text.length) :
    (i / (size - overlap)) * (size - overlap) ≤ i
    ∧ i < (i / (size - overlap)) * (size - overlap) + size
    ∧ (chunkWindows text size overlap)[i / (size - overlap)]? =
        some ((text.drop ((i / (size - overlap)) * (size - overlap))).take size)
    ∧ ((text.drop ((i / (size - overlap)) * (size - overlap))).take size)[i -
          (i / (size - overlap)) * (size - overlap)]? = text[i]? := by
  set s := size - overlap with hs_def
  have hs0 : 0 < s := by omega
  set j := i / s with hj_def
  have hcomm : j * s = s * (i / s) := by rw [hj_def, Nat.mul_comm]
  have hdm := Nat.div_add_mod i s
  have hmlt := Nat.mod_lt i hs0
  have h1 : j * s ≤ i := by omega
  have h2 : i < j * s + s := by omega
  have h3 : i < j * s + size := by omega
  have hjlt : j < (text.length + s - 1) / s := by
    have hdiv : (i + s) / s ≤ (text.length + s - 1) / s :=
      Nat.div_le_div_right (by omega)
    have hadd : (i + s) / s = i / s + 1 := Nat.add_div_right i hs0
    omega
  refine ⟨h1, h3, ?_, ?_⟩
  · rw [chunkWindows]
    simp only [← hs_def]
    rw [List.getElem?_map, List.getElem?_range hjlt]
    rfl
  · rw [List.getElem?_take_of_lt (by omega), List.getElem?_drop]
    congr 1
    omega

/-- C2: for `overlap ≥ size` on nonempty text, the `chunk_text` loop never
terminates — for every fuel bound the loop is still running (`none`).  The
code therefore hangs instead of failing fast with a configuration error as
the spec requires. -/
theorem chunk_text_diverges_on_invalid_overlap (text : List Char)
    (size overlap : Nat) (hparam : size ≤ overlap) (ht : text ≠ [])
    (fuel : Nat) : chunk_text text size overlap fuel = none :=
  chunkTextAux_stuck text size overlap hparam ht fuel 0 le_rfl

/-- Witness for C2 at text "ab", size 1, overlap 1, fuel 40. -/
theorem chunk_text_diverges_on_invalid_overlap_witness :
    (1 ≤ 1 ∧ "ab".toList ≠ []) ∧ chunk_text "ab".toList 1 1 40 = none :=
  ⟨⟨le_rfl, by decide⟩,
    chunk_text_diverges_on_invalid_overlap "ab".toList 1 1 le_rfl (by decide) 40⟩

/-- C3: for `overlap < size` and enough fuel, `chunk_text` terminates and
yields exactly the windows `text[j*(size-overlap) : j*(size-overlap)+size]`
(the last one truncated); it yields zero chunks on empty input; and every
character index of the text is covered by the window numbered
`i / (size - overlap)`, whose `(i mod (size-overlap))`-th character is
exactly `text[i]` (no gaps). -/
theorem chunk_text_windows_and_coverage (text : List Char)
    (size overlap fuel : Nat) (hparam : overlap < size)
    (hfuel : text.length ≤ fuel) :
    chunk_text text size overlap fuel = some (chunkWindows text size overlap)
    ∧ chunk_text ([] : List Char) size overlap fuel = some []
    ∧ ∀ i, i < text.length →
        (i / (size - overlap)) * (size - overlap) ≤ i
        ∧ i < (i / (size - overlap)) * (size - overlap) + size
        ∧ (chunkWindows text size overlap)[i / (size - overlap)]? =
            some ((text.drop ((i / (size - overlap)) * (size - overlap))).take size)
        ∧ ((text.drop ((i / (size - overlap)) * (size - overlap))).take
              size)[i - (i / (size - overlap)) * (size - overlap)]? = text[i]? := by
  refine ⟨?_, ?_, fun i hi => chunkWindows_cover text size overlap hparam i hi⟩
  · have hmul : fuel ≤ fuel * (size - overlap) :=
      Nat.le_mul_of_pos_right fuel (by omega)
    have := chunkTextAux_valid text size overlap hparam fuel 0 (by omega)
    rw [chunk_text, chunkWindows_eq_windowsFrom]
    exact_mod_cast this
  · cases fuel <;> simp [chunk_text, chunkTextAux]

/-- Witness for C3 at text "abcdefgh", size 3, overlap 1, fuel 8. -/
theorem chunk_text_windows_and_coverage_witness :
    (1 < 3 ∧ "abcdefgh".toList.length ≤ 8)
    ∧ (chunk_text "abcdefgh".toList 3 1 8 =
          some (chunkWindows "abcdefgh".toList 3 1)
        ∧ chunk_text ([] : List Char) 3 1 8 = some []
        ∧ ∀ i, i < "abcdefgh".toList.length →
            (i / (3 - 1)) * (3 - 1) ≤ i
            ∧ i < (i / (3 - 1)) * (3 - 1) + 3
            ∧ (chunkWindows "abcdefgh".toList 3 1)[i / (3 - 1)]? =
                some (("abcdefgh".toList.drop ((i / (3 - 1)) * (3 - 1))).take 3)
            ∧ (("abcdefgh".toList.drop ((i / (3 - 1)) * (3 - 1))).take
                  3)[i - (i / (3 - 1)) * (3 - 1)]? = "abcdefgh".toList[i]?) :=
  ⟨⟨by decide, by decide⟩,
    chunk_text_windows_and_coverage "abcdefgh".toList 3 1 8 (by decide) (by decide)⟩

/-- Squared Euclidean distance between two vectors (componentwise over the
zipped prefix; stored and query vectors share the configured dimension). -/
def sqDist (u v : List Int) : Int :=
  ((u.zip v).map (fun p => (p.1 - p.2) ^ 2)).sum

/-- The ordering used by exact L2 search: ascending squared distance, ties
broken by insertion position (lower position wins). -/
def distPosLe (a b : Int × Nat) : Prop :=
  a.1 < b.1 ∨ (a.1 = b.1 ∧ a.2 ≤ b.2)

instance : DecidableRel distPosLe := fun a b => by
  unfold distPosLe
  infer_instance

instance : IsTotal (Int × Nat) distPosLe := by
  constructor
  intro a b
  unfold distPosLe
  omega

instance : IsTrans (Int × Nat) distPosLe := by
  constructor
  intro a b c
  unfold distPosLe
  omega

lemma distPosLe_antisymm {a b : Int × Nat} (h1 : distPosLe a b)
    (h2 : distPosLe b a) : a = b := by
  obtain ⟨d1, p1⟩ := a
  obtain ⟨d2, p2⟩ := b
  unfold distPosLe at h1 h2
  simp only [Prod.mk.injEq]
  constructor
  · simp only at h1 h2
    omega
  · simp only at h1 h2
    omega

/-- Modelled from the spec: FAISS `IndexFlatL2` is external to the
repository; per the spec it holds the stored vectors in insertion order,
and `search` scores every stored vector by squared Euclidean distance to
the query.  This is the scored list `(distance, position)`. -/
def scoredList (index : List (List Int)) (q : List Int) : List (Int × Nat) :=
  index.enum.map (fun p => (sqDist q p.2, p.1))

/-- Modelled from the spec: exact brute-force nearest-neighbor search —
the `k` nearest stored vectors by squared Euclidean distance, ascending by
distance, ties broken by insertion order (lower position wins); if `k`
exceeds the stored count all stored vectors are returned. -/
def searchL2 (index : List (List Int)) (q : List Int) (k : Nat) :
    List (Int × Nat) :=
  (List.insertionSort distPosLe (scoredList index q)).take k

/-- The positions (`I` row) returned by a search. -/
def searchPositions (index : List (List Int)) (q : List Int) (k : Nat) :
    List Nat :=
  (searchL2 index q k).map (fun p => p.2)

lemma sqDist_self (q : List Int) : sqDist q q = 0 := by
  induction q with
  | nil => rfl
  | cons a l ih =>
    simp [sqDist, List.zip_cons_cons] at *
    exact ih

lemma sqDist_nonneg (u v : List Int) : 0 ≤ sqDist u v := by
  apply List.sum_nonneg
  intro x hx
  obtain ⟨p, _, rfl⟩ := List.mem_map.mp hx
  positivity

lemma sqDist_eq_zero (u : List Int) :
    ∀ v, u.length = v.length → (sqDist u v = 0 ↔ u = v) := by
  induction u with
  | nil =>
    intro v h
    cases v with
    | nil => simp [sqDist_self]
    | cons b m => simp at h
  | cons a l ih =>
    intro v h
    cases v with
    | nil => simp at h
    | cons b m =>
      constructor
      · intro h0
        simp only [sqDist, List.zip_cons_cons, List.map_cons, List.sum_cons] at h0
        have hterm : (0 : Int) ≤ (a - b) ^ 2 := by positivity
        have hrest : (0 : Int) ≤ sqDist l m := sqDist_nonneg l m
        have h0' : (a - b) ^ 2 + sqDist l m = 0 := h0
        have hab : (a - b) ^ 2 = 0 ∧ sqDist l m = 0 := by omega
        have hab1 : a = b := by
          have hsq := pow_eq_zero_iff (n := 2) (by norm_num) |>.mp hab.1
          omega
        have hlm : l = m := (ih m (by simpa using h)).mp hab.2
        rw [hab1, hlm]
      · intro he
        rw [he]
        exact sqDist_self (b :: m)

lemma scoredList_length (index : List (List Int)) (q : List Int) :
    (scoredList index q).length = index.length := by
  simp [scoredList]

lemma scoredList_getElem? (index : List (List Int)) (q : List Int) (j : Nat) :
    (scoredList index q)[j]? = index[j]?.map (fun v => (sqDist q v, j)) := by
  unfold scoredList
  rw [List.getElem?_map]
  simp [List.enum, Option.map_map]
  rfl

lemma mem_scoredList (index : List (List Int)) (q : List Int) (x : Int × Nat) :
    x ∈ scoredList index q ↔
      ∃ v, index[x.2]? = some v ∧ x.1 = sqDist q v := by
  constructor
  · intro hx
    obtain ⟨j, hj⟩ := List.mem_iff_getElem?.mp hx
    rw [scoredList_getElem?] at hj
    cases hidx : index[j]? with
    | none => rw [hidx] at hj; simp at hj
    | some v =>
      rw [hidx] at hj
      simp only [Option.map_some', Option.some.injEq] at hj
      refine ⟨v, ?_, ?_⟩
      · rw [← hj]
        exact hidx
      · rw [← hj]
  · rintro ⟨v, hv, hx1⟩
    apply List.mem_iff_getElem?.mpr
    refine ⟨x.2, ?_⟩
    rw [scoredList_getElem?, hv]
    simp only [Option.map_some', Option.some.injEq]
    obtain ⟨x1, x2⟩ := x
    simp only at hx1 ⊢
    rw [hx1]

/-- C6: for every query vector `q` and every `k ≤ N`, the spec-modelled
exact search returns exactly `k` results, sorted ascending by squared
distance with ties broken by lower position, each a genuinely `k`-nearest
scored entry; and whenever the query equals stored vector `i` (its first
occurrence, as the tie rule dictates), position `i` is the top-1 result
with distance 0. -/
theorem searchL2_k_nearest (index : List (List Int)) (q : List Int)
    (k : Nat) (hk : k ≤ index.length) :
    (searchL2 index q k).length = k
    ∧ List.Sorted distPosLe (searchL2 index q k)
    ∧ (∀ p ∈ searchL2 index q k, p ∈ scoredList index q)
    ∧ (∀ p ∈ searchL2 index q k, ∀ x ∈ scoredList index q,
        x ∉ searchL2 index q k → distPosLe p x)
    ∧ (∀ i, 1 ≤ k → (∀ v ∈ index, v.length = q.length) →
        index[i]? = some q → (∀ j, j < i → index[j]? ≠ some q) →
        (searchL2 index q k).head? = some (0, i)) := by
  have hdef : searchL2 index q k
      = (List.insertionSort distPosLe (scoredList index q)).take k := rfl
  have hperm : List.Perm (List.insertionSort distPosLe (scoredList index q))
      (scoredList index q) := List.perm_insertionSort _ _
  have hslen : (List.insertionSort distPosLe (scoredList index q)).length
      = index.length := by
    rw [hperm.length_eq, scoredList_length]
  have hsort : List.Sorted distPosLe
      (List.insertionSort distPosLe (scoredList index q)) :=
    List.sorted_insertionSort _ _
  have hlen : (searchL2 index q k).length = k := by
    rw [hdef, List.length_take, hslen]
    omega
  have hsorted_take : List.Sorted distPosLe (searchL2 index q k) := by
    rw [hdef]
    exact List.Pairwise.sublist (List.take_sublist _ _) hsort
  have hsub : ∀ p ∈ searchL2 index q k, p ∈ scoredList index q := by
    intro p hp
    rw [hdef] at hp
    exact hperm.subset ((List.take_sublist _ _).subset hp)
  have hnear : ∀ p ∈ searchL2 index q k, ∀ x ∈ scoredList index q,
      x ∉ searchL2 index q k → distPosLe p x := by
    intro p hp x hx hnx
    have hxs : x ∈ List.insertionSort distPosLe (scoredList index q) :=
      hperm.mem_iff.mpr hx
    have hxdrop : x ∈ (List.insertionSort distPosLe (scoredList index q)).drop k := by
      have hxsplit : x ∈
          List.take k (List.insertionSort distPosLe (scoredList index q))
          ++ List.drop k (List.insertionSort distPosLe (scoredList index q)) := by
        rw [List.take_append_drop]
        exact hxs
      rcases List.mem_append.mp hxsplit with h1 | h2
      · exact absurd (hdef ▸ h1) hnx
      · exact h2
    have hpw : List.Pairwise distPosLe
        (List.insertionSort distPosLe (scoredList index q)) := hsort
    rw [← List.take_append_drop k
      (List.insertionSort distPosLe (scoredList index q)),
      List.pairwise_append] at hpw
    exact hpw.2.2 p (hdef ▸ hp) x hxdrop
  refine ⟨hlen, hsorted_take, hsub, hnear, ?_⟩
  intro i hk1 hdim hq hfirst
  have hmem0 : (0, i) ∈ scoredList index q := by
    rw [mem_scoredList]
    exact ⟨q, hq, by simp [sqDist_self]⟩
  have hmin : ∀ x ∈ scoredList index q, distPosLe (0, i) x := by
    intro x hx
    obtain ⟨v, hv, hxd⟩ := (mem_scoredList index q x).mp hx
    have hd0 : 0 ≤ sqDist q v := sqDist_nonneg q v
    rcases eq_or_lt_of_le hd0 with heq | hlt
    · have hvlen : q.length = v.length := (hdim v (List.getElem?_mem hv)).symm
      have hveq : v = q := ((sqDist_eq_zero q v hvlen).mp heq.symm).symm
      have hile : i ≤ x.2 := by
        by_contra hcon
        exact hfirst x.2 (by omega) (hveq ▸ hv)
      unfold distPosLe
      simp only
      omega
    · unfold distPosLe
      simp only
      omega
  have hilt : i < index.length := by
    by_contra hcon
    rw [List.getElem?_eq_none (by omega)] at hq
    exact Option.noConfusion hq
  cases hsorted_eq : List.insertionSort distPosLe (scoredList index q) with
  | nil =>
    exfalso
    rw [hsorted_eq] at hslen
    simp at hslen
    omega
  | cons h0 t =>
    obtain ⟨k2, rfl⟩ : ∃ k2, k = k2 + 1 := ⟨k - 1, by omega⟩
    have htake : searchL2 index q (k2 + 1) = h0 :: t.take k2 := by
      rw [hdef, hsorted_eq]
      rfl
    have hh0mem : h0 ∈ scoredList index q :=
      hperm.subset (by rw [hsorted_eq]; exact List.mem_cons_self _ _)
    have h0le : distPosLe h0 (0, i) := by
      have hmem0s : (0, i) ∈ List.insertionSort distPosLe (scoredList index q) :=
        hperm.mem_iff.mpr hmem0
      rw [hsorted_eq] at hmem0s
      rcases List.mem_cons.mp hmem0s with heq | hmemt
      · rw [← heq]
        exact Or.inr ⟨rfl, le_rfl⟩
      · exact List.rel_of_sorted_cons (hsorted_eq ▸ hsort) _ hmemt
    have hle0 : distPosLe (0, i) h0 := hmin h0 hh0mem
    rw [htake, List.head?_cons, distPosLe_antisymm h0le hle0]

/-- Witness for C6: index `[[3,4],[0,0],[0,1]]`, query `[0,1]`, `k = 2`. -/
theorem searchL2_k_nearest_witness :
    (2 ≤ ([[3, 4], [0, 0], [0, 1]] : List (List Int)).length)
    ∧ ((searchL2 [[3, 4], [0, 0], [0, 1]] [0, 1] 2).length = 2
      ∧ List.Sorted distPosLe (searchL2 [[3, 4], [0, 0], [0, 1]] [0, 1] 2)
      ∧ (∀ p ∈ searchL2 [[3, 4], [0, 0], [0, 1]] [0, 1] 2,
          p ∈ scoredList [[3, 4], [0, 0], [0, 1]] [0, 1])
      ∧ (∀ p ∈ searchL2 [[3, 4], [0, 0], [0, 1]] [0, 1] 2,
          ∀ x ∈ scoredList [[3, 4], [0, 0], [0, 1]] [0, 1],
            x ∉ searchL2 [[3, 4], [0, 0], [0, 1]] [0, 1] 2 → distPosLe p x)
      ∧ (∀ i, 1 ≤ 2 →
          (∀ v ∈ ([[3, 4], [0, 0], [0, 1]] : List (List Int)),
            v.length = ([0, 1] : List Int).length) →
          ([[3, 4], [0, 0], [0, 1]] : List (List Int))[i]? = some [0, 1] →
          (∀ j, j < i →
            ([[3, 4], [0, 0], [0, 1]] : List (List Int))[j]? ≠ some [0, 1]) →
          (searchL2 [[3, 4], [0, 0], [0, 1]] [0, 1] 2).head? = some (0, i))) :=
  ⟨by decide, searchL2_k_nearest [[3, 4], [0, 0], [0, 1]] [0, 1] 2 (by decide)⟩

/-- C7: searching with `k` larger than the stored count returns exactly
`N = index.length` results — all stored vectors, ordered exactly as the
search with `k = N` orders them — and is not an error. -/
theorem searchL2_k_exceeds_count (index : List (List Int)) (q : List Int)
    (k : Nat) (hk : index.length < k) :
    (searchL2 index q k).length = index.length
    ∧ searchL2 index q k = searchL2 index q index.length := by
  have hslen : (List.insertionSort distPosLe (scoredList index q)).length
      = index.length := by
    rw [(List.perm_insertionSort _ _).length_eq, scoredList_length]
  constructor
  · unfold searchL2
    rw [List.length_take, hslen]
    omega
  · unfold searchL2
    rw [List.take_of_length_le (by omega), List.take_of_length_le (by omega)]

/-- Witness for C7: two stored vectors, `k = 5`. -/
theorem searchL2_k_exceeds_count_witness :
    (([[1], [2]] : List (List Int)).length < 5)
    ∧ ((searchL2 [[1], [2]] [0] 5).length = ([[1], [2]] : List (List Int)).length
      ∧ searchL2 [[1], [2]] [0] 5 =
          searchL2 [[1], [2]] [0] ([[1], [2]] : List (List Int)).length) :=
  ⟨by decide, searchL2_k_exceeds_count [[1], [2]] [0] 5 (by decide)⟩

/-- A metadata record: a Python dict modelled as an association list. -/
abbrev Doc : Type := List (String × String)

/-- `"content" in doc` (retriever.py line 69). -/
def hasContent (doc : Doc) : Bool :=
  doc.any (fun p => p.1 == "content")

/-- The state a successfully constructed `Retriever` holds: the loaded
index vectors and the loaded metadata list (retriever.py lines 27-42). -/
structure Retriever where
  index : List (List Int)
  doc_metadata : List Doc
deriving DecidableEq

/-- The failures `Retriever.__init__` can propagate: Gemini client
construction, FAISS index load, metadata unpickle (each re-raised). -/
inductive InitError
  | clientFailed
  | indexLoadFailed
  | metadataLoadFailed
deriving DecidableEq

/-- `Retriever.__init__` (retriever.py lines 15-42): initialize the client,
load the index, load the metadata; each failure is re-raised.  The loads
are modelled as `Option` values supplied by the environment.  The body
performs no cross-check between the two loaded artefacts. -/
def retrieverInit (clientOk : Bool) (loadedIndex : Option (List (List Int)))
    (loadedMeta : Option (List Doc)) : Except InitError Retriever :=
  if clientOk then
    match loadedIndex with
    | none => .error .indexLoadFailed
    | some idx =>
      match loadedMeta with
      | none => .error .metadataLoadFailed
      | some md => .ok ⟨idx, md⟩
  else .error .clientFailed

/-- The failure `Retriever.query` can propagate before reaching the result
loop: the single-item embedding call (retriever.py lines 46-56). -/
inductive QueryError
  | embedFailed
deriving DecidableEq

/-- The result loop of `Retriever.query` (retriever.py lines 65-77): walk
the returned positions in order; drop positions outside the metadata range
and records lacking the "content" key; keep whole records otherwise. -/
def collectResults (md : List Doc) (positions : List Nat) : List Doc :=
  positions.filterMap (fun i =>
    match md[i]? with
    | none => none
    | some doc => if hasContent doc then some doc else none)

/-- `Retriever.query` (retriever.py lines 44-77): embed the text (failure
propagates), search the index for the `k` nearest, then collect the
surviving metadata records.  There is no validation of `text` itself. -/
def Retriever.query (r : Retriever) (embedText : String → Option (List Int))
    (text : String) (k : Nat) : Except QueryError (List Doc) :=
  match embedText text with
  | none => .error .embedFailed
  | some q => .ok (collectResults r.doc_metadata (searchPositions r.index q k))

/-- Counterexample to C4: `Retriever.query` on an empty query text does
not reject the input — the text is embedded and the query succeeds,
returning documents. -/
theorem query_empty_text_not_rejected :
    Retriever.query ⟨[[0]], [[("content", "x")]]⟩ (fun _ => some [0]) "" 3
      = .ok [[("content", "x")]] := rfl

/-- C4 (amended): `Retriever.query` performs no validation of the query
text; empty or whitespace-only text is processed like any other, and the
outcome depends on the text only through its embedding. -/
theorem query_depends_only_on_embedding (r : Retriever)
    (e1 e2 : String → Option (List Int)) (t1 t2 : String) (k : Nat)
    (h : e1 t1 = e2 t2) :
    Retriever.query r e1 t1 k = Retriever.query r e2 t2 k := by
  unfold Retriever.query
  rw [h]

/-- Witness for the amended C4: the empty text and "hello" under the same
embedding give identical query results. -/
theorem query_depends_only_on_embedding_witness :
    ((fun _ : String => some ([0] : List Int)) ""
        = (fun _ : String => some ([0] : List Int)) "hello")
    ∧ Retriever.query ⟨[[0]], [[("content", "x")]]⟩ (fun _ => some [0]) "" 3
      = Retriever.query ⟨[[0]], [[("content", "x")]]⟩ (fun _ => some [0])
          "hello" 3 :=
  ⟨rfl, query_depends_only_on_embedding ⟨[[0]], [[("content", "x")]]⟩
    (fun _ => some [0]) (fun _ => some [0]) "" "hello" 3 rfl⟩

/-- Counterexample to C5: construction succeeds although the loaded index
holds 1 vector and the loaded metadata holds 2 records. -/
theorem retrieverInit_accepts_mismatched_counts :
    retrieverInit true (some [[0]])
        (some [[("content", "a")], [("content", "b")]])
      = .ok ⟨[[0]], [[("content", "a")], [("content", "b")]]⟩
    ∧ ([[0]] : List (List Int)).length
        ≠ ([[("content", "a")], [("content", "b")]] : List Doc).length := by
  constructor
  · rfl
  · decide

/-- C5 (amended): `Retriever.__init__` performs no vector-count /
record-count equality check: whenever the client initializes and both
files load, construction succeeds with exactly the loaded values, even
when the two counts differ. -/
theorem retrieverInit_no_count_check (idx : List (List Int)) (md : List Doc)
    (h : idx.length ≠ md.length) :
    retrieverInit true (some idx) (some md) = .ok ⟨idx, md⟩ := rfl

/-- Witness for the amended C5: two vectors against one record. -/
theorem retrieverInit_no_count_check_witness :
    (([[1], [2]] : List (List Int)).length
        ≠ ([[("content", "c")]] : List Doc).length)
    ∧ retrieverInit true (some [[1], [2]]) (some [[("content", "c")]])
        = .ok ⟨[[1], [2]], [[("content", "c")]]⟩ :=
  ⟨by decide, retrieverInit_no_count_check [[1], [2]] [[("content", "c")]]
    (by decide)⟩

/-- C9: every successful `Retriever.query` returns at most `k` records;
each returned record is the metadata entry at one of the positions the
search returned, and carries the "content" key — out-of-range positions
and content-less records are dropped, never returned. -/
theorem query_results_sound (r : Retriever)
    (embedText : String → Option (List Int)) (text : String) (k : Nat)
    (docs : List Doc)
    (h : Retriever.query r embedText text k = .ok docs) :
    docs.length ≤ k
    ∧ ∃ q, embedText text = some q
        ∧ ∀ d ∈ docs, hasContent d = true
            ∧ ∃ i ∈ searchPositions r.index q k,
                r.doc_metadata[i]? = some d := by
  unfold Retriever.query at h
  cases hemb : embedText text with
  | none =>
    rw [hemb] at h
    exact absurd h (by simp)
  | some q =>
    rw [hemb] at h
    simp only [Except.ok.injEq] at h
    subst h
    constructor
    · calc (collectResults r.doc_metadata (searchPositions r.index q k)).length
          ≤ (searchPositions r.index q k).length :=
            List.length_filterMap_le _ _
        _ = (searchL2 r.index q k).length := by
            unfold searchPositions
            rw [List.length_map]
        _ ≤ k := by
            unfold searchL2
            exact List.length_take_le _ _
    · refine ⟨q, rfl, ?_⟩
      intro d hd
      obtain ⟨i, hi, hfd⟩ := List.mem_filterMap.mp hd
      cases hmd : r.doc_metadata[i]? with
      | none =>
        rw [hmd] at hfd
        simp at hfd
      | some doc =>
        rw [hmd] at hfd
        simp only [Option.ite_none_right_eq_some, Option.some.injEq] at hfd
        obtain ⟨hc, hdoc⟩ := hfd
        subst hdoc
        exact ⟨hc, i, hi, hmd⟩

/-- Witness for C9: two stored vectors, one record with "content" and one
without; the query succeeds and returns only the record with content. -/
theorem query_results_sound_witness :
    (Retriever.query ⟨[[0], [5]], [[("content", "a")], [("source_file", "f")]]⟩
        (fun _ => some [0]) "hi" 2 = .ok [[("content", "a")]])
    ∧ (([[("content", "a")]] : List Doc).length ≤ 2
      ∧ ∃ q, (fun _ : String => some ([0] : List Int)) "hi" = some q
          ∧ ∀ d ∈ ([[("content", "a")]] : List Doc), hasContent d = true
              ∧ ∃ i ∈ searchPositions [[0], [5]] q 2,
                  ([[("content", "a")], [("source_file", "f")]] :
                      List Doc)[i]? = some d) :=
  ⟨rfl, query_results_sound
    ⟨[[0], [5]], [[("content", "a")], [("source_file", "f")]]⟩
    (fun _ => some [0]) "hi" 2 [[("content", "a")]] rfl⟩

/-- Modelled from the spec: `faiss.write_index` serializes the index to a
single file; the file is modelled as a flat stream of integers holding the
vector count followed by each vector length-prefixed. -/
def write_index (idx : List (List Int)) : List Int :=
  (idx.length : Int) :: idx.flatMap (fun v => (v.length : Int) :: v)

/-- Read exactly `n` values off the stream, or fail. -/
def takeExact : Nat → List Int → Option (List Int × List Int)
  | 0, rest => some ([], rest)
  | _ + 1, [] => none
  | n + 1, x :: rest =>
    match takeExact n rest with
    | none => none
    | some (xs, r) => some (x :: xs, r)

/-- Decode `n` length-prefixed vectors off the stream, or fail. -/
def decodeVecs : Nat → List Int → Option (List (List Int) × List Int)
  | 0, rest => some ([], rest)
  | _ + 1, [] => none
  | n + 1, len :: rest =>
    if len < 0 then none
    else
      match takeExact len.toNat rest with
      | none => none
      | some (v, r) =>
        match decodeVecs n r with
        | none => none
        | some (vs, r2) => some (v :: vs, r2)

/-- Modelled from the spec: `faiss.read_index` deserializes an index from
a file; a missing, truncated or trailing-garbage file is a load error
(`none`), never a partially usable index. -/
def read_index (data : List Int) : Option (List (List Int)) :=
  match data with
  | [] => none
  | n :: rest =>
    if n < 0 then none
    else
      match decodeVecs n.toNat rest with
      | some (vs, []) => some vs
      | _ => none

/-- One metadata-file token: a length marker or a string scalar. -/
abbrev MToken : Type := Sum Nat String

/-- Modelled from the spec: `pickle.dump` of the metadata list, modelled
as a token stream holding the record count, then each record as a length
prefix followed by its key/value strings. -/
def pickle_dump (md : List Doc) : List MToken :=
  Sum.inl md.length ::
    md.flatMap (fun d =>
      Sum.inl d.length :: d.flatMap (fun p => [Sum.inr p.1, Sum.inr p.2]))

/-- Decode `n` key/value pairs off the token stream, or fail. -/
def decodePairs : Nat → List MToken → Option (Doc × List MToken)
  | 0, rest => some ([], rest)
  | n + 1, Sum.inr key :: Sum.inr val :: rest =>
    match decodePairs n rest with
    | none => none
    | some (d, r) => some ((key, val) :: d, r)
  | _ + 1, _ => none

/-- Decode `n` records off the token stream, or fail. -/
def decodeDocs : Nat → List MToken → Option (List Doc × List MToken)
  | 0, rest => some ([], rest)
  | n + 1, Sum.inl len :: rest =>
    match decodePairs len rest with
    | none => none
    | some (d, r) =>
      match decodeDocs n r with
      | none => none
      | some (ds, r2) => some (d :: ds, r2)
  | _ + 1, _ => none

/-- Modelled from the spec: `pickle.load` of the metadata list; a missing,
truncated or malformed file is a load error (`none`). -/
def pickle_load (data : List MToken) : Option (List Doc) :=
  match data with
  | Sum.inl n :: rest =>
    match decodeDocs n rest with
    | some (ds, []) => some ds
    | _ => none
  | _ => none

lemma takeExact_append (v r : List Int) :
    takeExact v.length (v ++ r) = some (v, r) := by
  induction v with
  | nil => rfl
  | cons x xs ih =>
    show (match takeExact xs.length (xs ++ r) with
      | none => none
      | some (ys, r2) => some (x :: ys, r2)) = some (x :: xs, r)
    rw [ih]

lemma decodeVecs_append (idx : List (List Int)) (r : List Int) :
    decodeVecs idx.length (idx.flatMap (fun v => (v.length : Int) :: v) ++ r)
      = some (idx, r) := by
  induction idx with
  | nil => rfl
  | cons v vs ih =>
    have hshape :
        ((v :: vs).flatMap (fun w => (w.length : Int) :: w)) ++ r
          = (v.length : Int) ::
              (v ++ ((vs.flatMap (fun w => (w.length : Int) :: w)) ++ r)) := by
      simp
    rw [hshape]
    show (if (v.length : Int) < 0 then none
      else
        match takeExact (v.length : Int).toNat
            (v ++ ((vs.flatMap (fun w => (w.length : Int) :: w)) ++ r)) with
        | none => none
        | some (v2, r2) =>
          match decodeVecs vs.length r2 with
          | none => none
          | some (vs2, r3) => some (v2 :: vs2, r3)) = some (v :: vs, r)
    rw [if_neg (by omega), Int.toNat_ofNat, takeExact_append]
    show (match decodeVecs vs.length
        ((vs.flatMap (fun w => (w.length : Int) :: w)) ++ r) with
      | none => none
      | some (vs2, r3) => some (v :: vs2, r3)) = some (v :: vs, r)
    rw [ih]

lemma read_write_index (idx : List (List Int)) :
    read_index (write_index idx) = some idx := by
  show (if (idx.length : Int) < 0 then none
    else
      match decodeVecs (idx.length : Int).toNat
          (idx.flatMap (fun v => (v.length : Int) :: v)) with
      | some (vs, []) => some vs
      | _ => none) = some idx
  rw [if_neg (by omega), Int.toNat_ofNat]
  have h := decodeVecs_append idx []
  rw [List.append_nil] at h
  rw [h]

lemma decodePairs_append (d : Doc) (r : List MToken) :
    decodePairs d.length
        (d.flatMap (fun p => [Sum.inr p.1, Sum.inr p.2]) ++ r)
      = some (d, r) := by
  induction d with
  | nil => rfl
  | cons p ps ih =>
    show (match decodePairs ps.length
        (ps.flatMap (fun p => [Sum.inr p.1, Sum.inr p.2]) ++ r) with
      | none => none
      | some (d2, r2) => some ((p.1, p.2) :: d2, r2)) = some (p :: ps, r)
    rw [ih]

lemma decodeDocs_append (md : List Doc) (r : List MToken) :
    decodeDocs md.length
        (md.flatMap (fun d =>
          Sum.inl d.length ::
            d.flatMap (fun p => [Sum.inr p.1, Sum.inr p.2])) ++ r)
      = some (md, r) := by
  induction md with
  | nil => rfl
  | cons d ds ih =>
    have hshape :
        ((d :: ds).flatMap (fun d2 =>
            Sum.inl d2.length ::
              d2.flatMap (fun p => [Sum.inr p.1, Sum.inr p.2]))) ++ r
          = Sum.inl d.length ::
              (d.flatMap (fun p => [Sum.inr p.1, Sum.inr p.2]) ++
                ((ds.flatMap (fun d2 =>
                  Sum.inl d2.length ::
                    d2.flatMap (fun p => [Sum.inr p.1, Sum.inr p.2]))) ++ r)) := by
      simp
    rw [hshape]
    show (match decodePairs d.length
        (d.flatMap (fun p => [Sum.inr p.1, Sum.inr p.2]) ++
          ((ds.flatMap (fun d2 =>
            Sum.inl d2.length ::
              d2.flatMap (fun p => [Sum.inr p.1, Sum.inr p.2]))) ++ r)) with
      | none => none
      | some (d2, r2) =>
        match decodeDocs ds.length r2 with
        | none => none
        | some (ds2, r3) => some (d2 :: ds2, r3)) = some (d :: ds, r)
    rw [decodePairs_append]
    show (match decodeDocs ds.length
        ((ds.flatMap (fun d2 =>
          Sum.inl d2.length ::
            d2.flatMap (fun p => [Sum.inr p.1, Sum.inr p.2]))) ++ r) with
      | none => none
      | some (ds2, r3) => some (d :: ds2, r3)) = some (d :: ds, r)
    rw [ih]

lemma pickle_roundtrip (md : List Doc) :
    pickle_load (pickle_dump md) = some md := by
  show (match decodeDocs md.length
      (md.flatMap (fun d =>
        Sum.inl d.length ::
          d.flatMap (fun p => [Sum.inr p.1, Sum.inr p.2]))) with
    | some (ds, []) => some ds
    | _ => none) = some md
  have h := decodeDocs_append md []
  rw [List.append_nil] at h
  rw [h]

/-- C8: persisting the index and metadata pair and loading it back
succeeds and reproduces, for every fixed query embedding and `k`, exactly
the original search results (distances and positions) and the original
query results. -/
theorem persist_load_roundtrip_search (idx : List (List Int)) (md : List Doc)
    (q : List Int) (k : Nat) (embedText : String → Option (List Int))
    (text : String) :
    read_index (write_index idx) = some idx
    ∧ pickle_load (pickle_dump md) = some md
    ∧ (∀ idx2 md2, read_index (write_index idx) = some idx2 →
        pickle_load (pickle_dump md) = some md2 →
        searchL2 idx2 q k = searchL2 idx q k
        ∧ Retriever.query ⟨idx2, md2⟩ embedText text k
            = Retriever.query ⟨idx, md⟩ embedText text k) := by
  refine ⟨read_write_index idx, pickle_roundtrip md, ?_⟩
  intro idx2 md2 h1 h2
  rw [read_write_index idx] at h1
  rw [pickle_roundtrip md] at h2
  simp only [Option.some.injEq] at h1 h2
  subst h1
  subst h2
  exact ⟨rfl, rfl⟩

/-- The fixed embedding batch size of the build loop (pipeline.py line 81). -/
def BATCH_SIZE : Nat := 32

/-- The embedding loop of `main` (pipeline.py lines 82-90): for each batch
start `i = 0, 32, 64, ...` call `embed_batch`; if the call raises, print
and `continue` (that batch's embeddings are skipped), otherwise extend the
embeddings list.  The external call is modelled by a per-text embedding
function `embedOne` (spec: one output per input, in order) plus an
environment predicate `batchFails` on the batch start index. -/
def buildEmbeddings (embedOne : String → List Int) (batchFails : Nat → Bool)
    (all_chunks : List String) : List (List Int) :=
  ((List.range ((all_chunks.length + BATCH_SIZE - 1) / BATCH_SIZE)).map
    (fun b => b * BATCH_SIZE)).flatMap
    (fun i =>
      if batchFails i then []
      else ((all_chunks.drop i).take BATCH_SIZE).map embedOne)

/-- The chunk-collection phase of `main` (pipeline.py lines 57-78),
abstracted over the already-read `(source_file, chunk)` stream: a metadata
record is appended for every chunk, in lockstep. -/
def collectMetadata (docs : List (String × String)) : List Doc :=
  docs.map (fun d => [("source_file", d.1), ("content", d.2)])

/-- The whole build of `main` (pipeline.py lines 57-102): the index
receives the embeddings that survive batch failures, in order, while the
metadata file receives a record for every collected chunk. -/
def buildRun (embedOne : String → List Int) (batchFails : Nat → Bool)
    (docs : List (String × String)) : List (List Int) × List Doc :=
  (buildEmbeddings embedOne batchFails (docs.map (fun d => d.2)),
    collectMetadata docs)

/-- C1 evaluated at a failing input: with 33 chunks (two batches of the
fixed size 32) and the first batch's embedding call raising, the built
index holds `33 - 32 = 1` vector — but the metadata store keeps all 33
records, and the vector at position 0 is the embedding of chunk 32 while
the metadata record at position 0 describes chunk 0: the index and the
metadata store are no longer positionally aligned. -/
theorem buildRun_misaligned_after_failed_batch :
    (buildRun (fun s => s.toList.map (fun ch => (ch.toNat : Int)))
        (fun i => i == 0)
        (List.replicate 32 ("f", "a") ++ [("f", "c")])).1.length = 1
    ∧ (buildRun (fun s => s.toList.map (fun ch => (ch.toNat : Int)))
        (fun i => i == 0)
        (List.replicate 32 ("f", "a") ++ [("f", "c")])).2.length = 33
    ∧ (buildRun (fun s => s.toList.map (fun ch => (ch.toNat : Int)))
        (fun i => i == 0)
        (List.replicate 32 ("f", "a") ++ [("f", "c")])).1[0]?
      = some [99]
    ∧ (buildRun (fun s => s.toList.map (fun ch => (ch.toNat : Int)))
        (fun i => i == 0)
        (List.replicate 32 ("f", "a") ++ [("f", "c")])).2[0]?
      = some [("source_file", "f"), ("content", "a")]
    ∧ [(99 : Int)] ≠ "a".toList.map (fun ch => (ch.toNat : Int)) := by
  refine ⟨rfl, rfl, rfl, rfl, by decide⟩

/-- `" | ".join(str(cell) for cell in row if not pd.isna(cell))`
(pipeline.py line 37): missing (NaN) cells are dropped, the remaining
cell strings joined with " | ". -/
def rowLine (row : List (Option String)) : String :=
  String.intercalate " | " (row.filterMap id)

/-- `chunk_text` run with enough fuel to finish for valid parameters
(in the source the generator is fully consumed by `chunks.extend`). -/
def chunkTextRun (text : List Char) (size overlap : Nat) :
    List (List Char) :=
  (chunk_text text size overlap (text.length + 1)).getD []

/-- `read_xlsx` (pipeline.py lines 32-40): every sheet's every row is
flattened to a pipe-joined line of its non-missing cells; rows whose line
is non-blank after stripping are chunked with `chunk_text`'s hard-coded
default parameters `chunk_size=500`, `overlap=100`. -/
def read_xlsx (sheets : List (List (List (Option String)))) :
    List (List Char) :=
  sheets.flatMap (fun df =>
    df.flatMap (fun row =>
      if (rowLine row).trim.isEmpty then []
      else chunkTextRun (rowLine row).toList 500 100))

/-- Module-level constant `CHUNK_SIZE` (pipeline.py line 15). -/
def CHUNK_SIZE : Nat := 500

/-- Module-level constant `CHUNK_OVERLAP` (pipeline.py line 16). -/
def CHUNK_OVERLAP : Nat := 100

/-- One source file's data as `main` sees it (pipeline.py lines 60-78). -/
inductive FileData
  | txt (text : List Char)
  | xlsx (sheets : List (List (List (Option String))))
  | other

/-- The per-file chunking of `main` (pipeline.py lines 60-78), abstracted
over the module-level configuration constants: `.txt` files are chunked
with the configured size/overlap (the source passes `CHUNK_SIZE`,
`CHUNK_OVERLAP`), `.xlsx` files go through `read_xlsx`, other extensions
are skipped. -/
def fileChunks (cfgSize cfgOverlap : Nat) : FileData → List (List Char)
  | .txt t => chunkTextRun t cfgSize cfgOverlap
  | .xlsx s => read_xlsx s
  | .other => []

lemma chunkTextRun_valid (text : List Char) (size overlap : Nat)
    (h : overlap < size) :
    chunkTextRun text size overlap = chunkWindows text size overlap := by
  unfold chunkTextRun
  have h1 : 1 ≤ size - overlap := by omega
  have hfuel : text.length ≤ 0 + (text.length + 1) * (size - overlap) := by
    calc text.length ≤ (text.length + 1) * 1 := by omega
      _ ≤ (text.length + 1) * (size - overlap) := Nat.mul_le_mul_left _ h1
      _ = 0 + (text.length + 1) * (size - overlap) := by omega
  have hv := chunkTextAux_valid text size overlap h (text.length + 1) 0 hfuel
  have hz : ((0 : Nat) : Int) = (0 : Int) := rfl
  rw [hz] at hv
  rw [chunk_text, hv, Option.getD_some, chunkWindows_eq_windowsFrom]

/-- C10: each non-blank spreadsheet row, flattened to a " | "-joined line
of its non-missing cells, is chunked with the hard-coded defaults
`size=500`, `overlap=100`: the xlsx chunks equal the 500-wide windows
advancing by 400 over each row line, and are unaffected by the
module-level `CHUNK_SIZE` / `CHUNK_OVERLAP` configuration that governs
plain-text files. -/
theorem read_xlsx_uses_hardcoded_defaults
    (cfgSize cfgOverlap cfgSize2 cfgOverlap2 : Nat)
    (sheets : List (List (List (Option String)))) :
    fileChunks cfgSize cfgOverlap (.xlsx sheets)
      = fileChunks cfgSize2 cfgOverlap2 (.xlsx sheets)
    ∧ fileChunks cfgSize cfgOverlap (.xlsx sheets)
      = sheets.flatMap (fun df =>
          df.flatMap (fun row =>
            if (rowLine row).trim.isEmpty then []
            else chunkWindows (rowLine row).toList 500 100)) := by
  constructor
  · rfl
  · show read_xlsx sheets = _
    unfold read_xlsx
    congr 1
    funext df
    congr 1
    funext row
    by_cases hb : (rowLine row).trim.isEmpty
    · rw [if_pos hb, if_pos hb]
    · rw [if_neg hb, if_neg hb, chunkTextRun_valid _ 500 100 (by omega)]
